import Mathlib

set_option maxRecDepth 100000

/-!
Verification development for the git-safe encryption/decryption filter engine.

The repository fragment contains only the legacy entry script (`git-safe.py`)
and test fixtures; the engine itself (KeyMaterial, Envelope codec, CipherEngine,
FilterDriver) is specified in the design document.  Those components are
therefore modelled here from the specification: bytes are `Nat` values below
256, byte strings are `List Nat`, fallible operations return `Except`.

The specification fixes the architecture (envelope layout, encrypt-then-MAC,
verify-then-decrypt, clean/smudge behaviour, error taxonomy) but not the
concrete cipher or keyed hash.  The cipher is modelled as a CTR-style stream
cipher (ciphertext byte = plaintext byte XOR keystream byte, keystream derived
from cipher key, nonce and position), and the MAC as an idealized keyed tag:
a 64-byte tag combining an injective encoding of the 64-byte MAC key with a
polynomial hash of the message over the prime field of order 65537.  This
idealization gives the tag exactly the properties the specification's testable
properties assume (a different MAC key or a single flipped message bit changes
the tag); a real keyed hash has these properties only computationally.
-/

namespace GitSafe

instance {ε α : Type} [DecidableEq ε] [DecidableEq α] : DecidableEq (Except ε α) := fun x y =>
  match x, y with
  | .error a, .error b => decidable_of_iff (a = b) (by simp)
  | .error _, .ok _ => isFalse (by simp)
  | .ok _, .error _ => isFalse (by simp)
  | .ok a, .ok b => decidable_of_iff (a = b) (by simp)

/-- Modelled from the spec: the error taxonomy of §7 — `InvalidKeyLength`,
`MalformedEnvelope`, `UnsupportedVersion`, `AuthenticationFailed`. -/
inductive GitSafeError where
  | invalidKeyLength
  | malformedEnvelope
  | unsupportedVersion
  | authenticationFailed
deriving DecidableEq

/-- Modelled from the spec: `KeyMaterial` (§3), an immutable value holding a
32-byte cipher key and a 64-byte MAC key. -/
structure KeyMaterial where
  cipherKey : List Nat
  macKey : List Nat
deriving DecidableEq

/-- Modelled from the spec: `load` (§4.1) enforces exact key lengths
(32 and 64 bytes) and fails with `InvalidKeyLength` otherwise. -/
def load (cipherKeyBytes macKeyBytes : List Nat) : Except GitSafeError KeyMaterial :=
  if cipherKeyBytes.length = 32 ∧ macKeyBytes.length = 64 then
    .ok ⟨cipherKeyBytes, macKeyBytes⟩
  else
    .error .invalidKeyLength

/-- A KeyMaterial value whose fields are genuine byte strings of the exact
lengths `load` enforces. -/
def ValidKeys (k : KeyMaterial) : Prop :=
  k.cipherKey.length = 32 ∧ k.macKey.length = 64 ∧
    (∀ b ∈ k.cipherKey, b < 256) ∧ (∀ b ∈ k.macKey, b < 256)

instance (k : KeyMaterial) : Decidable (ValidKeys k) := by
  unfold ValidKeys; infer_instance

/-- Modelled from the spec: the fixed magic constant identifying the envelope
format (§3: a fixed 4–8 byte constant; modelled as the 8 bytes "GITSAFE\0"). -/
def MAGIC : List Nat := [71, 73, 84, 83, 65, 70, 69, 0]

/-- Modelled from the spec: the single recognized 1-byte format version. -/
def VERSION : Nat := 1

/-- Nonce length in bytes (fixed, dictated by the cipher mode; modelled as 16). -/
def NONCE_LEN : Nat := 16

/-- MAC tag length in bytes (fixed; 64 bytes, matching the 512-bit MAC key). -/
def MAC_LEN : Nat := 64

/-- Fixed envelope overhead: magic (8) + version (1) + nonce (16) + mac (64). -/
def OVERHEAD : Nat := 89

/-- Modelled from the spec: the `Envelope` record (§3) — magic, version,
nonce, ciphertext, mac. -/
structure Envelope where
  magic : List Nat
  version : Nat
  nonce : List Nat
  ciphertext : List Nat
  mac : List Nat
deriving DecidableEq

/-- Modelled from the spec: `encode` (§4.2) — fixed-order concatenation of the
envelope fields, no delimiters; the ciphertext length is implied by the total
size minus the fixed fields. -/
def encode (e : Envelope) : List Nat :=
  e.magic ++ (e.version :: (e.nonce ++ (e.ciphertext ++ e.mac)))

/-- Modelled from the spec: `decode` (§4.2) — fails with `MalformedEnvelope`
when the buffer is shorter than the fixed overhead or the magic does not
match, and with `UnsupportedVersion` when the magic is right but the version
byte is unrecognized. -/
def decode (bs : List Nat) : Except GitSafeError Envelope :=
  if bs.length < OVERHEAD then
    .error .malformedEnvelope
  else if bs.take 8 = MAGIC then
    if bs.getD 8 0 = VERSION then
      .ok ⟨bs.take 8, bs.getD 8 0, (bs.drop 9).take 16,
           (bs.drop 25).take (bs.length - 89), bs.drop (bs.length - 64)⟩
    else
      .error .unsupportedVersion
  else
    .error .malformedEnvelope

/-- The fields the authentication tag covers (§4.3, encrypt-then-MAC over
magic, version, nonce and ciphertext). -/
def macMessage (e : Envelope) : List Nat :=
  e.magic ++ (e.version :: (e.nonce ++ e.ciphertext))

/-- Little-endian base-256 value of a byte string (injective encoding of a
fixed-length byte string into a natural number). -/
def keyVal : List Nat → Nat
  | [] => 0
  | b :: t => b + 256 * keyVal t

/-- The low `k` base-256 digits of a natural number, as a byte string of
length `k`. -/
def natDigits : Nat → Nat → List Nat
  | 0, _ => []
  | k + 1, x => x % 256 :: natDigits k (x / 256)

/-- Polynomial hash of a byte string over the prime field of order 65537,
computed in plain natural-number arithmetic. -/
def msgHash (m : List Nat) : Nat :=
  m.foldr (fun b acc => (b + 256 * acc) % 65537) 0

/-- The same hash viewed in `ZMod 65537` (used only in proofs). -/
def hashZ (m : List Nat) : ZMod 65537 :=
  ((msgHash m : Nat) : ZMod 65537)

/-- Modulus bounding the 64-byte tag value. -/
def TAGMOD : Nat := 256 ^ 64

/-- Modelled from the spec: the keyed authentication-tag value (§4.3, the
concrete keyed hash is unspecified; idealized as MAC-key value plus message
hash, reduced modulo `256^64`). -/
def tagNat (key msg : List Nat) : Nat :=
  (keyVal key + msgHash msg) % TAGMOD

/-- The 64-byte serialized authentication tag. -/
def macOf (key msg : List Nat) : List Nat :=
  natDigits 64 (tagNat key msg)

/-- Modelled from the spec: the keystream of the CTR-style cipher mode — a
byte determined by the cipher key, the nonce and the byte position (§4.3; the
concrete cipher is unspecified). -/
def ks (key nonce : List Nat) (i : Nat) : Nat :=
  (keyVal key + keyVal nonce + i) % 256

/-- XOR a byte string against the keystream starting at position `i`
(the cipher transform; it is its own inverse). -/
def xorKs (key nonce : List Nat) : Nat → List Nat → List Nat
  | _, [] => []
  | i, b :: t => (b ^^^ ks key nonce i) :: xorKs key nonce (i + 1) t

/-- Modelled from the spec: `CipherEngine.encrypt` (§4.3) — apply the cipher
with the cipher key and a fresh nonce, tag magic/version/nonce/ciphertext with
the MAC key, and serialize via the Envelope codec.  The fresh random nonce is
an explicit argument: the cryptographically secure random source is external
to the functional model. -/
def encrypt (p : List Nat) (k : KeyMaterial) (nonce : List Nat) : List Nat :=
  encode ⟨MAGIC, VERSION, nonce, xorKs k.cipherKey nonce 0 p,
    macOf k.macKey (MAGIC ++ (VERSION :: (nonce ++ xorKs k.cipherKey nonce 0 p)))⟩

/-- Modelled from the spec: `CipherEngine.decrypt` (§4.3) — decode, recompute
the tag over the same fields and compare with the stored mac (mismatch fails
with `AuthenticationFailed`, and no plaintext is produced), then and only then
apply the inverse cipher transform. -/
def decrypt (bs : List Nat) (k : KeyMaterial) : Except GitSafeError (List Nat) :=
  match decode bs with
  | .error e => .error e
  | .ok env =>
    if macOf k.macKey (macMessage env) = env.mac then
      .ok (xorKs k.cipherKey env.nonce 0 env.ciphertext)
    else
      .error .authenticationFailed

/-- Modelled from the spec: `FilterDriver.clean` (§4.4) — when the input
already parses as a valid envelope and authenticates with the keys, return it
unchanged; otherwise treat it as plaintext and encrypt (the fresh nonce for
that case is an explicit argument, as in `encrypt`). -/
def clean (inp : List Nat) (k : KeyMaterial) (nonce : List Nat) : List Nat :=
  match decode inp with
  | .ok env => if macOf k.macKey (macMessage env) = env.mac then inp else encrypt inp k nonce
  | .error _ => encrypt inp k nonce

/-- Modelled from the spec: `FilterDriver.smudge` (§4.4) — input that does not
parse as an envelope at all is passed through unchanged; input that parses is
decrypted, with `AuthenticationFailed` propagated as a hard error. -/
def smudge (inp : List Nat) (k : KeyMaterial) : Except GitSafeError (List Nat) :=
  match decode inp with
  | .error .malformedEnvelope => .ok inp
  | .error e => .error e
  | .ok _ => decrypt inp k

/-- Flip bit `i` of a byte string (bit `i % 8` of byte `i / 8`). -/
def flipBit (i : Nat) (bs : List Nat) : List Nat :=
  bs.set (i / 8) (bs.getD (i / 8) 0 ^^^ (1 <<< (i % 8)))

/-- The sample cipher key of the test fixtures: 32 bytes of 0x41 (`b"A" * 32`). -/
def sampleCipherKey : List Nat := List.replicate 32 65

/-- The sample MAC key of the test fixtures: 64 bytes of 0x48 (`b"H" * 64`). -/
def sampleMacKey : List Nat := List.replicate 64 72

/-- The sample KeyMaterial built from the test-fixture keys. -/
def k0 : KeyMaterial := ⟨sampleCipherKey, sampleMacKey⟩

/-- A concrete 16-byte nonce used for witnesses. -/
def n0 : List Nat := List.replicate 16 7

/-- A second concrete 16-byte nonce, distinct from `n0`. -/
def n1 : List Nat := 9 :: List.replicate 15 7

/-- The bytes of the test fixture `sample_data`:
`b"This is sample test data for encryption and decryption testing."`. -/
def sampleData : List Nat :=
  [84, 104, 105, 115, 32, 105, 115, 32, 115, 97, 109, 112, 108, 101, 32, 116,
   101, 115, 116, 32, 100, 97, 116, 97, 32, 102, 111, 114, 32, 101, 110, 99,
   114, 121, 112, 116, 105, 111, 110, 32, 97, 110, 100, 32, 100, 101, 99, 114,
   121, 112, 116, 105, 111, 110, 32, 116, 101, 115, 116, 105, 110, 103, 46]

/-- A KeyMaterial value sharing `k0`'s cipher key but holding a different MAC key. -/
def kAlt : KeyMaterial := ⟨sampleCipherKey, List.replicate 64 1⟩

/-- A concrete envelope produced under `kAlt` (used to exercise smudge on
authentic-looking input that fails authentication under `k0`). -/
def bs5 : List Nat := encrypt [5] kAlt n0

/-- The envelope record that `decode` recovers from `bs5`. -/
def env5 : Envelope :=
  ⟨MAGIC, VERSION, n0, xorKs kAlt.cipherKey n0 0 [5],
    macOf kAlt.macKey (MAGIC ++ (VERSION :: (n0 ++ xorKs kAlt.cipherKey n0 0 [5])))⟩

/-- The envelope record that `decode` recovers from `encrypt [7] k0 n0`. -/
def env7 : Envelope :=
  ⟨MAGIC, VERSION, n0, xorKs k0.cipherKey n0 0 [7],
    macOf k0.macKey (MAGIC ++ (VERSION :: (n0 ++ xorKs k0.cipherKey n0 0 [7])))⟩

/-- A buffer with correct magic, an unrecognized version byte (5), and enough
length to clear the minimum-overhead check. -/
def badVersionBuf : List Nat := MAGIC ++ (5 :: List.replicate 80 0)

/-- An observable event of running the legacy entry script `src/git-safe.py`. -/
inductive PyEvent where
  | insertPath
  | callMain
deriving DecidableEq, BEq

/-- The observable outcome of running or importing `src/git-safe.py`: the
resulting `sys.path`, the ordered module-level events, and the process exit
status requested via `sys.exit` (none when merely imported). -/
structure PyRunResult where
  sysPath : List String
  events : List PyEvent
  exitStatus : Option Int
deriving DecidableEq

/-- Shallow embedding of `src/git-safe.py`: module execution first runs
`sys.path.insert(0, str(Path(__file__).parent))`, then (only under
`__name__ == "__main__"`) calls `git_safe.cli.main()` once and passes its
return value to `sys.exit`. -/
def gitSafePyRun (name : String) (path0 : List String) (scriptDir : String)
    (mainRet : Int) : PyRunResult :=
  if name = "__main__" then
    ⟨scriptDir :: path0, [.insertPath, .callMain], some mainRet⟩
  else
    ⟨scriptDir :: path0, [.insertPath], none⟩

instance : Fact (Nat.Prime 65537) := ⟨by norm_num⟩

theorem getD_set_self : ∀ (l : List Nat) (j x : Nat), j < l.length →
    (l.set j x).getD j 0 = x
  | [], j, x, h => absurd h (by simp)
  | _ :: _, 0, _, _ => rfl
  | a :: t, j + 1, x, h => getD_set_self t j x (by simpa using h)

theorem set_ne_self (l : List Nat) (j x : Nat) (h : j < l.length)
    (hx : x ≠ l.getD j 0) : l.set j x ≠ l := by
  intro he
  exact hx (by rw [← getD_set_self l j x h, he])

theorem set_eq_take_cons_drop : ∀ (l : List Nat) (j x : Nat), j < l.length →
    l.set j x = l.take j ++ (x :: l.drop (j + 1))
  | [], j, x, h => absurd h (by simp)
  | a :: t, 0, x, _ => rfl
  | a :: t, j + 1, x, h => by
    simpa using set_eq_take_cons_drop t j x (by simpa using h)

theorem eq_take_getD_cons_drop : ∀ (l : List Nat) (j : Nat), j < l.length →
    l = l.take j ++ (l.getD j 0 :: l.drop (j + 1))
  | [], j, h => absurd h (by simp)
  | a :: t, 0, _ => rfl
  | a :: t, j + 1, h => by
    simpa using eq_take_getD_cons_drop t j (by simpa using h)

theorem getD_mem : ∀ (l : List Nat) (j : Nat), j < l.length → l.getD j 0 ∈ l
  | [], j, h => absurd h (by simp)
  | a :: t, 0, _ => by simp
  | a :: t, j + 1, h => by
    simpa using Or.inr (getD_mem t j (by simpa using h))

theorem keyVal_lt : ∀ l : List Nat, (∀ b ∈ l, b < 256) → keyVal l < 256 ^ l.length := by
  intro l
  induction l with
  | nil => simp [keyVal]
  | cons a t ih =>
    intro h
    have ha : a < 256 := h a (by simp)
    have ht : keyVal t < 256 ^ t.length := ih fun b hb => h b (by simp [hb])
    simp only [keyVal, List.length_cons, pow_succ]
    generalize 256 ^ t.length = T at ht ⊢
    omega

theorem keyVal_inj : ∀ l₁ l₂ : List Nat, l₁.length = l₂.length →
    (∀ b ∈ l₁, b < 256) → (∀ b ∈ l₂, b < 256) → keyVal l₁ = keyVal l₂ → l₁ = l₂
  | [], [], _, _, _, _ => rfl
  | [], _ :: _, h, _, _, _ => absurd h (by simp)
  | _ :: _, [], h, _, _, _ => absurd h (by simp)
  | a :: t, a' :: t', hlen, hb, hb', heq => by
    have ha : a < 256 := hb a (by simp)
    have ha' : a' < 256 := hb' a' (by simp)
    simp only [keyVal] at heq
    have hae : a = a' ∧ keyVal t = keyVal t' := by omega
    have := keyVal_inj t t' (by simpa using hlen)
      (fun b m => hb b (by simp [m])) (fun b m => hb' b (by simp [m])) hae.2
    simp [hae.1, this]

theorem natDigits_length : ∀ k x : Nat, (natDigits k x).length = k
  | 0, _ => rfl
  | k + 1, x => by simp [natDigits, natDigits_length k]

theorem natDigits_mem_lt : ∀ (k x b : Nat), b ∈ natDigits k x → b < 256
  | 0, _, _, h => absurd h (by simp [natDigits])
  | k + 1, x, b, h => by
    rcases (by simpa [natDigits] using h) with h1 | h2
    · omega
    · exact natDigits_mem_lt k (x / 256) b h2

theorem natDigits_inj : ∀ k x y : Nat, x < 256 ^ k → y < 256 ^ k →
    natDigits k x = natDigits k y → x = y
  | 0, x, y, hx, hy, _ => by
    simp only [pow_zero] at hx hy; omega
  | k + 1, x, y, hx, hy, h => by
    simp only [natDigits, List.cons.injEq] at h
    have hx' : x / 256 < 256 ^ k := by
      have : x < 256 ^ k * 256 := by rw [← pow_succ]; exact hx
      omega
    have hy' : y / 256 < 256 ^ k := by
      have : y < 256 ^ k * 256 := by rw [← pow_succ]; exact hy
      omega
    have := natDigits_inj k (x / 256) (y / 256) hx' hy' h.2
    omega

theorem msgHash_nil : msgHash [] = 0 := rfl

theorem msgHash_cons (b : Nat) (t : List Nat) :
    msgHash (b :: t) = (b + 256 * msgHash t) % 65537 := rfl

theorem msgHash_lt (m : List Nat) : msgHash m < 65537 := by
  cases m with
  | nil => simp [msgHash_nil]
  | cons b t => rw [msgHash_cons]; exact Nat.mod_lt _ (by norm_num)

theorem hashZ_cons (b : Nat) (t : List Nat) :
    hashZ (b :: t) = (b : ZMod 65537) + 256 * hashZ t := by
  unfold hashZ
  rw [msgHash_cons, ZMod.natCast_mod]
  push_cast
  ring

theorem hashZ_ne_of_byte_change :
    ∀ (pre : List Nat) (v v' : Nat) (suf : List Nat), v < 65537 → v' < 65537 → v ≠ v' →
      hashZ (pre ++ (v :: suf)) ≠ hashZ (pre ++ (v' :: suf)) := by
  intro pre
  induction pre with
  | nil =>
    intro v v' suf hv hv' hne heq
    rw [List.nil_append, List.nil_append, hashZ_cons, hashZ_cons] at heq
    have h2 : (v : ZMod 65537) = (v' : ZMod 65537) := by
      exact add_right_cancel heq
    have h3 := congrArg ZMod.val h2
    rw [ZMod.val_cast_of_lt hv, ZMod.val_cast_of_lt hv'] at h3
    exact hne h3
  | cons a pre ih =>
    intro v v' suf hv hv' hne heq
    rw [List.cons_append, List.cons_append, hashZ_cons, hashZ_cons] at heq
    have h2 : (256 : ZMod 65537) * hashZ (pre ++ (v :: suf)) =
        (256 : ZMod 65537) * hashZ (pre ++ (v' :: suf)) := add_left_cancel heq
    have h256 : (256 : ZMod 65537) ≠ 0 := by decide
    exact ih v v' suf hv hv' hne (mul_left_cancel₀ h256 h2)

theorem msgHash_ne_of_byte_change (pre : List Nat) (v v' : Nat) (suf : List Nat)
    (hv : v < 65537) (hv' : v' < 65537) (hne : v ≠ v') :
    msgHash (pre ++ (v :: suf)) ≠ msgHash (pre ++ (v' :: suf)) := by
  intro h
  exact hashZ_ne_of_byte_change pre v v' suf hv hv' hne (by unfold hashZ; rw [h])

theorem TAGMOD_pos : 0 < TAGMOD := by
  unfold TAGMOD; positivity

theorem tagNat_lt (key msg : List Nat) : tagNat key msg < TAGMOD :=
  Nat.mod_lt _ TAGMOD_pos

theorem msgHash_lt_TAGMOD (m : List Nat) : msgHash m < TAGMOD := by
  have h1 : msgHash m < 65537 := msgHash_lt m
  have h2 : (65537 : Nat) ≤ TAGMOD := by
    unfold TAGMOD
    calc (65537 : Nat) ≤ 256 ^ 3 := by norm_num
    _ ≤ 256 ^ 64 := Nat.pow_le_pow_right (by norm_num) (by norm_num)
  omega

theorem macOf_length (key msg : List Nat) : (macOf key msg).length = 64 :=
  natDigits_length 64 (tagNat key msg)

theorem macOf_mem_lt (key msg : List Nat) : ∀ b ∈ macOf key msg, b < 256 :=
  fun b hb => natDigits_mem_lt 64 (tagNat key msg) b hb

theorem tagNat_ne_of_key (k₁ k₂ msg : List Nat) (h₁ : k₁.length = 64)
    (h₂ : k₂.length = 64) (b₁ : ∀ b ∈ k₁, b < 256) (b₂ : ∀ b ∈ k₂, b < 256)
    (hne : k₁ ≠ k₂) : tagNat k₁ msg ≠ tagNat k₂ msg := by
  intro he
  apply hne
  apply keyVal_inj k₁ k₂ (h₁.trans h₂.symm) b₁ b₂
  have hm : keyVal k₁ + msgHash msg ≡ keyVal k₂ + msgHash msg [MOD TAGMOD] := he
  have hc : keyVal k₁ ≡ keyVal k₂ [MOD TAGMOD] :=
    Nat.ModEq.add_right_cancel' (msgHash msg) hm
  have hkv₁ : keyVal k₁ < TAGMOD := by
    have := keyVal_lt k₁ b₁; rw [h₁] at this; exact this
  have hkv₂ : keyVal k₂ < TAGMOD := by
    have := keyVal_lt k₂ b₂; rw [h₂] at this; exact this
  have h3 : keyVal k₁ % TAGMOD = keyVal k₂ % TAGMOD := hc
  rw [Nat.mod_eq_of_lt hkv₁, Nat.mod_eq_of_lt hkv₂] at h3
  exact h3

theorem tagNat_ne_of_msg (key m₁ m₂ : List Nat)
    (hne : msgHash m₁ ≠ msgHash m₂) : tagNat key m₁ ≠ tagNat key m₂ := by
  intro he
  apply hne
  have hm : keyVal key + msgHash m₁ ≡ keyVal key + msgHash m₂ [MOD TAGMOD] := he
  have hc : msgHash m₁ ≡ msgHash m₂ [MOD TAGMOD] :=
    Nat.ModEq.add_left_cancel' (keyVal key) hm
  have h3 : msgHash m₁ % TAGMOD = msgHash m₂ % TAGMOD := hc
  rw [Nat.mod_eq_of_lt (msgHash_lt_TAGMOD m₁), Nat.mod_eq_of_lt (msgHash_lt_TAGMOD m₂)] at h3
  exact h3

theorem macOf_ne_of_key (k₁ k₂ msg : List Nat) (h₁ : k₁.length = 64)
    (h₂ : k₂.length = 64) (b₁ : ∀ b ∈ k₁, b < 256) (b₂ : ∀ b ∈ k₂, b < 256)
    (hne : k₁ ≠ k₂) : macOf k₁ msg ≠ macOf k₂ msg := by
  intro he
  exact tagNat_ne_of_key k₁ k₂ msg h₁ h₂ b₁ b₂ hne
    (natDigits_inj 64 _ _ (tagNat_lt k₁ msg) (tagNat_lt k₂ msg) he)

theorem macOf_ne_of_msg (key m₁ m₂ : List Nat)
    (hne : msgHash m₁ ≠ msgHash m₂) : macOf key m₁ ≠ macOf key m₂ := by
  intro he
  exact tagNat_ne_of_msg key m₁ m₂ hne
    (natDigits_inj 64 _ _ (tagNat_lt key m₁) (tagNat_lt key m₂) he)

theorem ks_lt (key nonce : List Nat) (i : Nat) : ks key nonce i < 256 :=
  Nat.mod_lt _ (by norm_num)

theorem xorKs_length (key nonce : List Nat) :
    ∀ (i : Nat) (l : List Nat), (xorKs key nonce i l).length = l.length
  | _, [] => rfl
  | i, _ :: t => by simp [xorKs, xorKs_length key nonce (i + 1) t]

theorem xorKs_xorKs (key nonce : List Nat) :
    ∀ (i : Nat) (l : List Nat), xorKs key nonce i (xorKs key nonce i l) = l
  | _, [] => rfl
  | i, b :: t => by
    simp [xorKs, Nat.xor_cancel_right, xorKs_xorKs key nonce (i + 1) t]

theorem xorKs_mem_lt (key nonce : List Nat) :
    ∀ (i : Nat) (l : List Nat), (∀ b ∈ l, b < 256) → ∀ b ∈ xorKs key nonce i l, b < 256
  | _, [], _, b, hb => absurd hb (by simp [xorKs])
  | i, a :: t, h, b, hb => by
    rcases (by simpa [xorKs] using hb) with h1 | h2
    · subst h1
      have h8 : (256 : Nat) = 2 ^ 8 := by norm_num
      rw [h8]
      exact Nat.xor_lt_two_pow (by rw [← h8]; exact h a (by simp))
        (by rw [← h8]; exact ks_lt key nonce i)
    · exact xorKs_mem_lt key nonce (i + 1) t (fun x hx => h x (by simp [hx])) b h2

theorem parts_length (m : List Nat) (v : Nat) (nn ct mc : List Nat)
    (hm : m.length = 8) (hn : nn.length = 16) (hc : mc.length = 64) :
    (m ++ (v :: (nn ++ (ct ++ mc)))).length = 89 + ct.length := by
  simp only [List.length_append, List.length_cons, hm, hn, hc]
  omega

theorem parts_getD8 (m : List Nat) (v : Nat) (rest : List Nat)
    (hm : m.length = 8) : (m ++ (v :: rest)).getD 8 0 = v := by
  rw [List.getD_append_right _ _ _ _ (by omega), hm]
  simp

theorem parts_drop9 (m : List Nat) (v : Nat) (rest : List Nat)
    (hm : m.length = 8) : (m ++ (v :: rest)).drop 9 = rest := by
  rw [List.append_cons]
  exact List.drop_left' (by simp [hm])

theorem parts_drop25 (m : List Nat) (v : Nat) (nn rest : List Nat)
    (hm : m.length = 8) (hn : nn.length = 16) :
    (m ++ (v :: (nn ++ rest))).drop 25 = rest := by
  have h9 : (25 : Nat) = 9 + 16 := by norm_num
  rw [h9, ← List.drop_drop, parts_drop9 m v _ hm, List.drop_left' hn]

theorem decode_parts (nn ct mc : List Nat) (hn : nn.length = 16) (hc : mc.length = 64) :
    decode (MAGIC ++ (VERSION :: (nn ++ (ct ++ mc)))) = .ok ⟨MAGIC, VERSION, nn, ct, mc⟩ := by
  have hmlen : MAGIC.length = 8 := rfl
  have hlen := parts_length MAGIC VERSION nn ct mc hmlen hn hc
  have h1 : ¬ (MAGIC ++ (VERSION :: (nn ++ (ct ++ mc)))).length < OVERHEAD := by
    unfold OVERHEAD; omega
  have h2 : (MAGIC ++ (VERSION :: (nn ++ (ct ++ mc)))).take 8 = MAGIC :=
    List.take_left' hmlen
  have h3 : (MAGIC ++ (VERSION :: (nn ++ (ct ++ mc)))).getD 8 0 = VERSION :=
    parts_getD8 MAGIC VERSION _ hmlen
  have h4 : (MAGIC ++ (VERSION :: (nn ++ (ct ++ mc)))).length - 89 = ct.length := by omega
  have h5 : (MAGIC ++ (VERSION :: (nn ++ (ct ++ mc)))).length - 64 = 25 + ct.length := by
    omega
  have h6 : (MAGIC ++ (VERSION :: (nn ++ (ct ++ mc)))).drop (25 + ct.length) = mc := by
    rw [← List.drop_drop, parts_drop25 MAGIC VERSION nn _ hmlen hn, List.drop_left]
  simp only [decode]
  rw [if_neg h1, if_pos h2, if_pos h3, h2, h3, parts_drop9 MAGIC VERSION _ hmlen,
    List.take_left' hn, parts_drop25 MAGIC VERSION nn _ hmlen hn, h4, List.take_left,
    h5, h6]

theorem decode_badmagic (m : List Nat) (v : Nat) (nn ct mc : List Nat)
    (hm : m.length = 8) (hM : m ≠ MAGIC) (hn : nn.length = 16) (hc : mc.length = 64) :
    decode (m ++ (v :: (nn ++ (ct ++ mc)))) = .error .malformedEnvelope := by
  have hlen := parts_length m v nn ct mc hm hn hc
  have h1 : ¬ (m ++ (v :: (nn ++ (ct ++ mc)))).length < OVERHEAD := by
    unfold OVERHEAD; omega
  have h2 : (m ++ (v :: (nn ++ (ct ++ mc)))).take 8 = m := List.take_left' hm
  simp only [decode]
  rw [if_neg h1, if_neg (by rw [h2]; exact hM)]

theorem decode_badversion (v : Nat) (nn ct mc : List Nat)
    (hV : v ≠ VERSION) (hn : nn.length = 16) (hc : mc.length = 64) :
    decode (MAGIC ++ (v :: (nn ++ (ct ++ mc)))) = .error .unsupportedVersion := by
  have hmlen : MAGIC.length = 8 := rfl
  have hlen := parts_length MAGIC v nn ct mc hmlen hn hc
  have h1 : ¬ (MAGIC ++ (v :: (nn ++ (ct ++ mc)))).length < OVERHEAD := by
    unfold OVERHEAD; omega
  have h2 : (MAGIC ++ (v :: (nn ++ (ct ++ mc)))).take 8 = MAGIC := List.take_left' hmlen
  have h3 : (MAGIC ++ (v :: (nn ++ (ct ++ mc)))).getD 8 0 = v :=
    parts_getD8 MAGIC v _ hmlen
  simp only [decode]
  rw [if_neg h1, if_pos h2, if_neg (by rw [h3]; exact hV)]

theorem encrypt_eq_parts (p : List Nat) (k : KeyMaterial) (nonce : List Nat) :
    encrypt p k nonce =
      MAGIC ++ (VERSION :: (nonce ++ (xorKs k.cipherKey nonce 0 p ++
        macOf k.macKey (MAGIC ++ (VERSION :: (nonce ++ xorKs k.cipherKey nonce 0 p)))))) := rfl

theorem decode_encrypt (p : List Nat) (k : KeyMaterial) (nonce : List Nat)
    (hn : nonce.length = 16) :
    decode (encrypt p k nonce) = .ok ⟨MAGIC, VERSION, nonce, xorKs k.cipherKey nonce 0 p,
      macOf k.macKey (MAGIC ++ (VERSION :: (nonce ++ xorKs k.cipherKey nonce 0 p)))⟩ := by
  rw [encrypt_eq_parts]
  exact decode_parts nonce _ _ hn (macOf_length _ _)

theorem macMessage_mk (mg : List Nat) (v : Nat) (nn ct mc : List Nat) :
    macMessage ⟨mg, v, nn, ct, mc⟩ = mg ++ (v :: (nn ++ ct)) := rfl

theorem decrypt_encrypt (p : List Nat) (k : KeyMaterial) (nonce : List Nat)
    (hn : nonce.length = 16) : decrypt (encrypt p k nonce) k = .ok p := by
  unfold decrypt
  rw [decode_encrypt p k nonce hn]
  dsimp only [macMessage]
  rw [if_pos rfl, xorKs_xorKs]

theorem decode_wrongmagic_any (bs : List Nat) (h : bs.take 8 ≠ MAGIC) :
    decode bs = .error .malformedEnvelope := by
  unfold decode
  by_cases hl : bs.length < OVERHEAD
  · rw [if_pos hl]
  · rw [if_neg hl, if_neg h]

theorem encrypt_length (p : List Nat) (k : KeyMaterial) (n : List Nat)
    (hn : n.length = 16) : (encrypt p k n).length = p.length + OVERHEAD := by
  rw [encrypt_eq_parts,
    parts_length MAGIC VERSION n _ _ rfl hn (macOf_length _ _), xorKs_length]
  unfold OVERHEAD
  omega

theorem clean_of_encrypt (p : List Nat) (k : KeyMaterial) (n₁ n₂ : List Nat)
    (h1 : n₁.length = 16) : clean (encrypt p k n₁) k n₂ = encrypt p k n₁ := by
  unfold clean
  rw [decode_encrypt p k n₁ h1]
  dsimp only [macMessage]
  rw [if_pos rfl]

theorem xor_two_pow_ne (v b : Nat) : v ^^^ 2 ^ b ≠ v := by
  intro h
  have h0 : (2 : Nat) ^ b = 0 := by
    calc (2 : Nat) ^ b = v ^^^ (v ^^^ 2 ^ b) := by
          rw [← Nat.xor_assoc, Nat.xor_self, Nat.zero_xor]
    _ = v ^^^ v := by rw [h]
    _ = 0 := Nat.xor_self v
  exact absurd h0 (by positivity)

theorem xor_two_pow_lt (v b : Nat) (hv : v < 256) (hb : b < 8) : v ^^^ 2 ^ b < 256 := by
  have h1 : (2 : Nat) ^ b ≤ 2 ^ 7 := Nat.pow_le_pow_right (by norm_num) (by omega)
  have h2 : (2 : Nat) ^ 7 = 128 := by norm_num
  have h8 : (256 : Nat) = 2 ^ 8 := by norm_num
  rw [h8]
  exact Nat.xor_lt_two_pow (by omega) (by omega)

theorem nest_append (m : List Nat) (v : Nat) (A B : List Nat) :
    m ++ (v :: (A ++ B)) = (m ++ (v :: A)) ++ B := by
  simp [List.append_assoc]

theorem parts_getD_rest (m : List Nat) (v : Nat) (rest : List Nat)
    (hm : m.length = 8) (j : Nat) (hj : 9 ≤ j) :
    (m ++ (v :: rest)).getD j 0 = rest.getD (j - 9) 0 := by
  rw [List.append_cons, List.getD_append_right _ _ _ _ (by simp [hm]; omega)]
  simp [hm]

theorem tamper_magic (k : KeyMaterial) (nn ct mc : List Nat)
    (hn : nn.length = 16) (hc : mc.length = 64) (j x : Nat) (hj : j < 8)
    (hx : x ≠ MAGIC.getD j 0) :
    decrypt ((MAGIC ++ (VERSION :: (nn ++ (ct ++ mc)))).set j x) k =
      .error .malformedEnvelope := by
  have hml : MAGIC.length = 8 := rfl
  have hjm : j < MAGIC.length := by rw [hml]; exact hj
  rw [List.set_append_left j x hjm]
  unfold decrypt
  rw [decode_badmagic _ VERSION nn ct mc (by rw [List.length_set]; exact hml)
    (set_ne_self MAGIC j x hjm hx) hn hc]

theorem tamper_version (k : KeyMaterial) (nn ct mc : List Nat)
    (hn : nn.length = 16) (hc : mc.length = 64) (x : Nat) (hx : x ≠ VERSION) :
    decrypt ((MAGIC ++ (VERSION :: (nn ++ (ct ++ mc)))).set 8 x) k =
      .error .unsupportedVersion := by
  have hml : MAGIC.length = 8 := rfl
  rw [List.set_append_right 8 x (le_of_eq hml)]
  have h0 : 8 - MAGIC.length = 0 := by rw [hml]
  rw [h0, List.set_cons_zero]
  unfold decrypt
  rw [decode_badversion x nn ct mc hx hn hc]

theorem tamper_body (k : KeyMaterial) (nn ct mc : List Nat)
    (hn : nn.length = 16) (hbn : ∀ b ∈ nn, b < 256) (hbc : ∀ b ∈ ct, b < 256)
    (hmc : macOf k.macKey (MAGIC ++ (VERSION :: (nn ++ ct))) = mc)
    (hc : mc.length = 64) (j x : Nat) (hj9 : 9 ≤ j) (hjlt : j < 25 + ct.length)
    (hxlt : x < 256) (hx : x ≠ (nn ++ ct).getD (j - 9) 0) :
    decrypt ((MAGIC ++ (VERSION :: (nn ++ (ct ++ mc)))).set j x) k =
      .error .authenticationFailed := by
  have hml : MAGIC.length = 8 := rfl
  have hlen_nc : (nn ++ ct).length = 16 + ct.length := by simp [hn]
  have hj9' : j - 9 < (nn ++ ct).length := by rw [hlen_nc]; omega
  rw [← List.append_assoc nn ct mc]
  rw [List.set_append_right j x (by rw [hml]; omega)]
  have h8 : j - MAGIC.length = (j - 9) + 1 := by rw [hml]; omega
  rw [h8, List.set_cons_succ, List.set_append_left (j - 9) x hj9']
  rw [← List.take_append_drop 16 ((nn ++ ct).set (j - 9) x), List.append_assoc]
  unfold decrypt
  rw [decode_parts _ _ _ (by simp [List.length_take, List.length_set, hlen_nc]) hc]
  dsimp only [macMessage]
  have hneq : macOf k.macKey (MAGIC ++ (VERSION ::
      (((nn ++ ct).set (j - 9) x).take 16 ++ ((nn ++ ct).set (j - 9) x).drop 16))) ≠
        mc := by
    rw [List.take_append_drop, ← hmc]
    have hv : (nn ++ ct).getD (j - 9) 0 < 256 := by
      rcases List.mem_append.1 (getD_mem (nn ++ ct) (j - 9) hj9') with h | h
      · exact hbn _ h
      · exact hbc _ h
    have e1 : MAGIC ++ (VERSION :: ((nn ++ ct).set (j - 9) x)) =
        (MAGIC ++ (VERSION :: ((nn ++ ct).take (j - 9)))) ++
          (x :: (nn ++ ct).drop (j - 9 + 1)) := by
      rw [set_eq_take_cons_drop _ _ _ hj9', nest_append]
    have e2 : MAGIC ++ (VERSION :: (nn ++ ct)) =
        (MAGIC ++ (VERSION :: ((nn ++ ct).take (j - 9)))) ++
          ((nn ++ ct).getD (j - 9) 0 :: (nn ++ ct).drop (j - 9 + 1)) := by
      conv_lhs => rw [eq_take_getD_cons_drop (nn ++ ct) (j - 9) hj9']
      rw [nest_append]
    rw [e1, e2]
    exact macOf_ne_of_msg _ _ _
      (msgHash_ne_of_byte_change _ x _ _ (by omega) (by omega) hx)
  rw [if_neg hneq]

theorem tamper_mac (k : KeyMaterial) (nn ct mc : List Nat) (hn : nn.length = 16)
    (hmc : macOf k.macKey (MAGIC ++ (VERSION :: (nn ++ ct))) = mc)
    (hc : mc.length = 64) (j x : Nat) (hj : 25 + ct.length ≤ j)
    (hjlt : j < 89 + ct.length) (hx : x ≠ mc.getD (j - (25 + ct.length)) 0) :
    decrypt ((MAGIC ++ (VERSION :: (nn ++ (ct ++ mc)))).set j x) k =
      .error .authenticationFailed := by
  have hml : MAGIC.length = 8 := rfl
  have hmsglen : (MAGIC ++ (VERSION :: (nn ++ ct))).length = 25 + ct.length := by
    simp [List.length_append, List.length_cons, hn]
    omega
  rw [← List.append_assoc nn ct mc, nest_append]
  rw [List.set_append_right j x (by rw [hmsglen]; omega)]
  rw [hmsglen]
  rw [← nest_append, List.append_assoc]
  unfold decrypt
  rw [decode_parts nn ct _ hn (by rw [List.length_set]; exact hc)]
  dsimp only [macMessage]
  have hneq : macOf k.macKey (MAGIC ++ (VERSION :: (nn ++ ct))) ≠
      mc.set (j - (25 + ct.length)) x := by
    rw [hmc]
    intro h
    exact set_ne_self mc _ x (by rw [hc]; omega) hx h.symm
  rw [if_neg hneq]

/-- C1: round-trip — for every plaintext byte sequence (including the empty
one), every valid KeyMaterial and every 16-byte nonce drawn by the random
source, decrypting the envelope produced by encrypt returns exactly the
original plaintext. -/
theorem C1_roundtrip (p : List Nat) (k : KeyMaterial) (n : List Nat)
    (hk : ValidKeys k) (hn : n.length = 16) :
    decrypt (encrypt p k n) k = .ok p :=
  decrypt_encrypt p k n hn

theorem C1_roundtrip_witness :
    decrypt (encrypt [1, 2, 3] k0 n0) k0 = .ok [1, 2, 3] :=
  C1_roundtrip [1, 2, 3] k0 n0 (by decide) (by decide)

/-- C2 counterexample: flipping bit 64 of a valid envelope — the low bit of
the version byte — makes decrypt fail with UnsupportedVersion, which is
neither AuthenticationFailed nor MalformedEnvelope, refuting the claim that
every single-bit flip fails with one of those two errors. -/
theorem C2_tamper_counterexample :
    decrypt (flipBit 64 (encrypt [] k0 n0)) k0 = .error .unsupportedVersion ∧
    GitSafeError.unsupportedVersion ≠ GitSafeError.authenticationFailed ∧
    GitSafeError.unsupportedVersion ≠ GitSafeError.malformedEnvelope := by
  decide

/-- C2 amended: flipping any single bit of a valid envelope makes decrypt
fail with MalformedEnvelope, UnsupportedVersion or AuthenticationFailed (a
flip inside the version byte yields UnsupportedVersion); decrypt never
returns plaintext, altered or not, for a tampered envelope. -/
theorem C2_tamper_amended (p : List Nat) (k : KeyMaterial) (n : List Nat) (i : Nat)
    (hk : ValidKeys k) (hp : ∀ b ∈ p, b < 256) (hn : n.length = 16)
    (hnb : ∀ b ∈ n, b < 256) (hi : i < 8 * (encrypt p k n).length) :
    decrypt (flipBit i (encrypt p k n)) k = .error .malformedEnvelope ∨
    decrypt (flipBit i (encrypt p k n)) k = .error .unsupportedVersion ∨
    decrypt (flipBit i (encrypt p k n)) k = .error .authenticationFailed := by
  have hlen : (encrypt p k n).length = p.length + 89 := encrypt_length p k n hn
  have hml : MAGIC.length = 8 := rfl
  have hctlen : (xorKs k.cipherKey n 0 p).length = p.length := xorKs_length _ _ 0 p
  have hctb : ∀ b ∈ xorKs k.cipherKey n 0 p, b < 256 := xorKs_mem_lt _ _ 0 p hp
  have hb8 : i % 8 < 8 := Nat.mod_lt _ (by norm_num)
  have hj : i / 8 < p.length + 89 := by omega
  unfold flipBit
  rw [Nat.one_shiftLeft, encrypt_eq_parts]
  rcases Nat.lt_or_ge (i / 8) 8 with hcase1 | hge8
  · left
    rw [List.getD_append _ _ _ _ (by rw [hml]; exact hcase1)]
    exact tamper_magic k n _ _ hn (macOf_length _ _) (i / 8) _ hcase1
      (xor_two_pow_ne _ _)
  · rcases Nat.lt_or_ge (i / 8) 9 with hcase2 | hge9
    · have h8 : i / 8 = 8 := by omega
      right; left
      rw [h8, parts_getD8 MAGIC VERSION _ hml]
      exact tamper_version k n _ _ hn (macOf_length _ _) _ (xor_two_pow_ne _ _)
    · rcases Nat.lt_or_ge (i / 8) (25 + p.length) with hcase3 | hge25
      · right; right
        have hrest : (MAGIC ++ (VERSION :: (n ++ (xorKs k.cipherKey n 0 p ++
            macOf k.macKey (MAGIC ++ (VERSION ::
              (n ++ xorKs k.cipherKey n 0 p))))))).getD (i / 8) 0 =
            (n ++ xorKs k.cipherKey n 0 p).getD (i / 8 - 9) 0 := by
          rw [parts_getD_rest MAGIC VERSION _ hml (i / 8) hge9,
            ← List.append_assoc, List.getD_append _ _ _ _ (by simp [hn, hctlen]; omega)]
        rw [hrest]
        have hv : (n ++ xorKs k.cipherKey n 0 p).getD (i / 8 - 9) 0 < 256 := by
          rcases List.mem_append.1 (getD_mem (n ++ xorKs k.cipherKey n 0 p)
              (i / 8 - 9) (by simp [hn, hctlen]; omega)) with h | h
          · exact hnb _ h
          · exact hctb _ h
        exact tamper_body k n _ _ hn hnb hctb rfl (macOf_length _ _) (i / 8) _
          hge9 (by omega) (xor_two_pow_lt _ _ hv hb8) (xor_two_pow_ne _ _)
      · right; right
        have hrest : (MAGIC ++ (VERSION :: (n ++ (xorKs k.cipherKey n 0 p ++
            macOf k.macKey (MAGIC ++ (VERSION ::
              (n ++ xorKs k.cipherKey n 0 p))))))).getD (i / 8) 0 =
            (macOf k.macKey (MAGIC ++ (VERSION ::
              (n ++ xorKs k.cipherKey n 0 p)))).getD
                (i / 8 - (25 + (xorKs k.cipherKey n 0 p).length)) 0 := by
          rw [parts_getD_rest MAGIC VERSION _ hml (i / 8) hge9,
            ← List.append_assoc,
            List.getD_append_right _ _ _ _ (by simp [hn, hctlen]; omega)]
          congr 1
          simp [List.length_append, hn]
          omega
        rw [hrest]
        exact tamper_mac k n _ _ hn rfl (macOf_length _ _) (i / 8) _
          (by omega) (by omega) (xor_two_pow_ne _ _)

theorem C2_tamper_amended_witness :
    decrypt (flipBit 300 (encrypt [1] k0 n0)) k0 = .error .malformedEnvelope ∨
    decrypt (flipBit 300 (encrypt [1] k0 n0)) k0 = .error .unsupportedVersion ∨
    decrypt (flipBit 300 (encrypt [1] k0 n0)) k0 = .error .authenticationFailed :=
  C2_tamper_amended [1] k0 n0 300 (by decide) (by decide) (by decide) (by decide)
    (by decide)

/-- C3 counterexample: two distinct valid KeyMaterial values that share the
MAC key but differ in the cipher key — decrypting under the second does not
fail with AuthenticationFailed (the tag verifies, and the wrongly-decrypted
plaintext is returned), refuting the claim that any k1 ≠ k2 yields
AuthenticationFailed. -/
theorem C3_key_isolation_counterexample :
    (⟨sampleCipherKey, sampleMacKey⟩ : KeyMaterial) ≠ ⟨List.replicate 32 66, sampleMacKey⟩ ∧
    ValidKeys ⟨sampleCipherKey, sampleMacKey⟩ ∧
    ValidKeys ⟨List.replicate 32 66, sampleMacKey⟩ ∧
    decrypt (encrypt [66] ⟨sampleCipherKey, sampleMacKey⟩ n0)
      ⟨List.replicate 32 66, sampleMacKey⟩ ≠ .error .authenticationFailed := by
  decide

/-- C3 amended: key isolation holds whenever the MAC keys differ — for every
plaintext and every pair of valid KeyMaterial values whose MAC keys are
distinct, decrypting under the second key fails with AuthenticationFailed. -/
theorem C3_key_isolation_amended (p : List Nat) (k₁ k₂ : KeyMaterial) (n : List Nat)
    (hk₁ : ValidKeys k₁) (hk₂ : ValidKeys k₂) (hn : n.length = 16)
    (hmk : k₁.macKey ≠ k₂.macKey) :
    decrypt (encrypt p k₁ n) k₂ = .error .authenticationFailed := by
  unfold decrypt
  rw [decode_encrypt p k₁ n hn]
  dsimp only [macMessage]
  rw [if_neg (macOf_ne_of_key k₂.macKey k₁.macKey _ hk₂.2.1 hk₁.2.1
    hk₂.2.2.2 hk₁.2.2.2 (Ne.symm hmk))]

theorem C3_key_isolation_amended_witness :
    decrypt (encrypt [3] k0 n0) kAlt = .error .authenticationFailed :=
  C3_key_isolation_amended [3] k0 kAlt n0 (by decide) (by decide) (by decide) (by decide)

/-- C4: clean is idempotent — re-running clean on its own output is a no-op,
and an input that already parses as a valid envelope and authenticates under
the keys is returned unchanged. -/
theorem C4_clean_idempotent (p : List Nat) (k : KeyMaterial) (n₁ n₂ : List Nat)
    (hk : ValidKeys k) (h1 : n₁.length = 16) :
    clean (clean p k n₁) k n₂ = clean p k n₁ ∧
    (∀ env, decode p = .ok env → macOf k.macKey (macMessage env) = env.mac →
      clean p k n₁ = p) := by
  constructor
  · cases hd : decode p with
    | error e =>
      have hcp : clean p k n₁ = encrypt p k n₁ := by
        unfold clean; rw [hd]
      rw [hcp, clean_of_encrypt p k n₁ n₂ h1]
    | ok env =>
      by_cases hmac : macOf k.macKey (macMessage env) = env.mac
      · have hcp : clean p k n₁ = p := by
          unfold clean; rw [hd]; exact if_pos hmac
        rw [hcp]
        unfold clean; rw [hd]; exact if_pos hmac
      · have hcp : clean p k n₁ = encrypt p k n₁ := by
          unfold clean; rw [hd]; exact if_neg hmac
        rw [hcp, clean_of_encrypt p k n₁ n₂ h1]
  · intro env hd hmac
    unfold clean; rw [hd]; exact if_pos hmac

theorem C4_clean_idempotent_witness :
    clean (clean [1, 2] k0 n0) k0 n1 = clean [1, 2] k0 n0 ∧
    clean (encrypt [7] k0 n0) k0 n1 = encrypt [7] k0 n0 :=
  ⟨(C4_clean_idempotent [1, 2] k0 n0 n1 (by decide) (by decide)).1,
   (C4_clean_idempotent (encrypt [7] k0 n0) k0 n1 n1 (by decide) (by decide)).2
     env7 (by decide) (by decide)⟩

/-- C5: smudge passes non-envelope input (wrong magic) through unchanged,
while input that parses as a valid envelope is handed to decrypt, and an
authentication failure there is propagated as a hard error rather than the
ciphertext being returned. -/
theorem C5_smudge_passthrough (bs : List Nat) (k : KeyMaterial) :
    (bs.take 8 ≠ MAGIC → smudge bs k = .ok bs) ∧
    (∀ env, decode bs = .ok env → smudge bs k = decrypt bs k) ∧
    (∀ env, decode bs = .ok env → macOf k.macKey (macMessage env) ≠ env.mac →
      smudge bs k = .error .authenticationFailed) := by
  refine ⟨?_, ?_, ?_⟩
  · intro h
    have hd := decode_wrongmagic_any bs h
    simp only [smudge, hd]
  · intro env hd
    simp only [smudge, hd]
  · intro env hd hmac
    simp only [smudge, hd, decrypt]
    rw [if_neg hmac]

theorem C5_smudge_passthrough_witness :
    smudge [1, 2, 3] k0 = .ok [1, 2, 3] ∧
    smudge bs5 k0 = decrypt bs5 k0 ∧
    smudge bs5 k0 = .error .authenticationFailed :=
  ⟨(C5_smudge_passthrough [1, 2, 3] k0).1 (by decide),
   (C5_smudge_passthrough bs5 k0).2.1 env5 (by decide),
   (C5_smudge_passthrough bs5 k0).2.2 env5 (by decide) (by decide)⟩

/-- C6: decode error taxonomy — a buffer shorter than the fixed overhead
(in particular the empty buffer) or with wrong magic fails with
MalformedEnvelope, while correct magic with an unrecognized version byte
fails with the distinct error UnsupportedVersion. -/
theorem C6_decode_taxonomy (bs : List Nat) :
    (bs.length < OVERHEAD → decode bs = .error .malformedEnvelope) ∧
    (bs.take 8 ≠ MAGIC → decode bs = .error .malformedEnvelope) ∧
    (OVERHEAD ≤ bs.length → bs.take 8 = MAGIC → bs.getD 8 0 ≠ VERSION →
      decode bs = .error .unsupportedVersion) ∧
    decode [] = .error .malformedEnvelope ∧
    GitSafeError.unsupportedVersion ≠ GitSafeError.malformedEnvelope := by
  refine ⟨?_, decode_wrongmagic_any bs, ?_, by decide, by decide⟩
  · intro h
    unfold decode
    rw [if_pos h]
  · intro h1 h2 h3
    unfold decode
    rw [if_neg (by omega), if_pos h2, if_neg h3]

theorem C6_decode_taxonomy_witness :
    decode (List.replicate 3 0) = .error .malformedEnvelope ∧
    decode badVersionBuf = .error .unsupportedVersion :=
  ⟨(C6_decode_taxonomy (List.replicate 3 0)).1 (by decide),
   (C6_decode_taxonomy badVersionBuf).2.2.1 (by decide) (by decide) (by decide)⟩

/-- C7: load succeeds exactly when the cipher key is 32 bytes and the MAC key
is 64 bytes, and fails with InvalidKeyLength for any other lengths. -/
theorem C7_load_key_lengths (ck mk : List Nat) :
    (load ck mk = .ok ⟨ck, mk⟩ ↔ ck.length = 32 ∧ mk.length = 64) ∧
    (¬(ck.length = 32 ∧ mk.length = 64) → load ck mk = .error .invalidKeyLength) := by
  constructor
  · constructor
    · intro h
      by_cases hc : ck.length = 32 ∧ mk.length = 64
      · exact hc
      · unfold load at h
        rw [if_neg hc] at h
        exact absurd h (by simp)
    · intro hc
      unfold load
      rw [if_pos hc]
  · intro hc
    unfold load
    rw [if_neg hc]

theorem C7_load_key_lengths_witness :
    load sampleCipherKey sampleMacKey = .ok ⟨sampleCipherKey, sampleMacKey⟩ ∧
    load [1] [2] = .error .invalidKeyLength :=
  ⟨(C7_load_key_lengths sampleCipherKey sampleMacKey).1.2 (by decide),
   (C7_load_key_lengths [1] [2]).2 (by decide)⟩

/-- C8 counterexample: with empty plaintext, two encryptions under the same
key with distinct nonces produce envelopes whose ciphertext fields are both
empty, hence equal — refuting the claim that the two calls always produce
different ciphertext bytes. -/
theorem C8_nonce_counterexample :
    n0 ≠ n1 ∧
    Except.map Envelope.ciphertext (decode (encrypt [] k0 n0)) = .ok [] ∧
    Except.map Envelope.ciphertext (decode (encrypt [] k0 n1)) = .ok [] := by
  decide

/-- C8 amended: two calls of encrypt that draw distinct nonces from the random
source produce envelopes carrying those distinct nonces, hence different
envelope bytes; the ciphertext fields themselves need not differ (for empty
plaintext both are empty). -/
theorem C8_nonce_amended (p : List Nat) (k : KeyMaterial) (m₁ m₂ : List Nat)
    (hk : ValidKeys k) (h1 : m₁.length = 16) (h2 : m₂.length = 16) (hne : m₁ ≠ m₂) :
    Except.map Envelope.nonce (decode (encrypt p k m₁)) = .ok m₁ ∧
    Except.map Envelope.nonce (decode (encrypt p k m₂)) = .ok m₂ ∧
    encrypt p k m₁ ≠ encrypt p k m₂ := by
  have e1 : Except.map Envelope.nonce (decode (encrypt p k m₁)) = .ok m₁ := by
    rw [decode_encrypt p k m₁ h1]; rfl
  have e2 : Except.map Envelope.nonce (decode (encrypt p k m₂)) = .ok m₂ := by
    rw [decode_encrypt p k m₂ h2]; rfl
  refine ⟨e1, e2, ?_⟩
  intro he
  rw [he] at e1
  exact hne (Except.ok.inj (e1.symm.trans e2))

theorem C8_nonce_amended_witness :
    Except.map Envelope.nonce (decode (encrypt [4] k0 n0)) = .ok n0 ∧
    Except.map Envelope.nonce (decode (encrypt [4] k0 n1)) = .ok n1 ∧
    encrypt [4] k0 n0 ≠ encrypt [4] k0 n1 :=
  C8_nonce_amended [4] k0 n0 n1 (by decide) (by decide) (by decide) (by decide)

/-- C9: envelope length discipline — every envelope is exactly the fixed
overhead (89 bytes) longer than its plaintext; empty plaintext gives the
minimal 89-byte envelope which decrypts back to empty plaintext; and the
concrete fixture (cipher key 0x41*32, MAC key 0x48*64, the sample sentence)
round-trips exactly with exactly the fixed overhead added. -/
theorem C9_envelope_length (p : List Nat) (k : KeyMaterial) (n : List Nat)
    (hk : ValidKeys k) (hn : n.length = 16) :
    (encrypt p k n).length = p.length + OVERHEAD ∧
    (encrypt [] k n).length = OVERHEAD ∧
    decrypt (encrypt [] k n) k = .ok [] ∧
    decrypt (encrypt sampleData k0 n0) k0 = .ok sampleData ∧
    (encrypt sampleData k0 n0).length = sampleData.length + OVERHEAD := by
  refine ⟨encrypt_length p k n hn, ?_, decrypt_encrypt [] k n hn, ?_, ?_⟩
  · have h := encrypt_length [] k n hn
    simpa using h
  · exact decrypt_encrypt sampleData k0 n0 (by decide)
  · exact encrypt_length sampleData k0 n0 (by decide)

theorem C9_envelope_length_witness :
    (encrypt [9] k0 n0).length = [9].length + OVERHEAD ∧
    (encrypt [] k0 n0).length = OVERHEAD ∧
    decrypt (encrypt [] k0 n0) k0 = .ok [] ∧
    decrypt (encrypt sampleData k0 n0) k0 = .ok sampleData ∧
    (encrypt sampleData k0 n0).length = sampleData.length + OVERHEAD :=
  C9_envelope_length [9] k0 n0 (by decide) (by decide)

/-- C10: the legacy entry script prepends its containing directory to
sys.path, then — only when executed as a script (`__name__ == "__main__"`) —
calls git_safe.cli.main() exactly once, exiting with its return value; when
imported as a module, main is never called and no exit status is requested. -/
theorem C10_entry_point (path0 : List String) (scriptDir : String) (mainRet : Int)
    (name : String) (hname : name ≠ "__main__") :
    (gitSafePyRun "__main__" path0 scriptDir mainRet).sysPath = scriptDir :: path0 ∧
    (gitSafePyRun "__main__" path0 scriptDir mainRet).events = [.insertPath, .callMain] ∧
    (gitSafePyRun "__main__" path0 scriptDir mainRet).events.count .callMain = 1 ∧
    (gitSafePyRun "__main__" path0 scriptDir mainRet).exitStatus = some mainRet ∧
    (gitSafePyRun name path0 scriptDir mainRet).sysPath = scriptDir :: path0 ∧
    (gitSafePyRun name path0 scriptDir mainRet).events.count .callMain = 0 ∧
    (gitSafePyRun name path0 scriptDir mainRet).exitStatus = none := by
  have h1 : gitSafePyRun "__main__" path0 scriptDir mainRet =
      ⟨scriptDir :: path0, [.insertPath, .callMain], some mainRet⟩ := by
    unfold gitSafePyRun
    rw [if_pos rfl]
  have h2 : gitSafePyRun name path0 scriptDir mainRet =
      ⟨scriptDir :: path0, [.insertPath], none⟩ := by
    unfold gitSafePyRun
    rw [if_neg hname]
  rw [h1, h2]
  exact ⟨rfl, rfl, rfl, rfl, rfl, rfl, rfl⟩

theorem C10_entry_point_witness :
    (gitSafePyRun "__main__" [] "/repo" 0).sysPath = ["/repo"] ∧
    (gitSafePyRun "__main__" [] "/repo" 0).events = [.insertPath, .callMain] ∧
    (gitSafePyRun "__main__" [] "/repo" 0).events.count .callMain = 1 ∧
    (gitSafePyRun "__main__" [] "/repo" 0).exitStatus = some 0 ∧
    (gitSafePyRun "git_safe_legacy" [] "/repo" 0).sysPath = ["/repo"] ∧
    (gitSafePyRun "git_safe_legacy" [] "/repo" 0).events.count .callMain = 0 ∧
    (gitSafePyRun "git_safe_legacy" [] "/repo" 0).exitStatus = none :=
  C10_entry_point [] "/repo" 0 "git_safe_legacy" (by decide)

end GitSafe
